import Mathlib

/-!
# Verification of the DStone plugin orchestration core

A shallow embedding of the plugin-management core of the `dstone` repository
(`src/dstone.py`, `src/core/base_plugin.py`, `src/core/exceptions.py`) and
proofs about it.

Modelling conventions:
* A Python plugin object (`BasePlugin` instance) becomes the structure
  `Plugin`.  The `app` back-reference and the logger are never consulted by
  the orchestration logic, so they are omitted from the structure.
* The registry `self.plugins : Dict[str, BasePlugin]` is a `List Plugin`
  in insertion order; the dict key always equals the instance's `name`
  field (`register_plugin` stores `self.plugins[plugin_instance.name]`),
  so lookup is `find?` on the `name` field and dict-key uniqueness becomes
  the `NamesNodup` hypothesis.
* Python exceptions become an `Except PyErr` result.  Unbounded recursion
  (Python's call stack) is modelled with explicit fuel; running out of fuel
  is Python's `RecursionError`.
* Mutation of the `initialized` attribute becomes explicit state passing of
  the registry list.
-/

namespace DStone

/-- The plugin entity: the dataclass fields of `BasePlugin`
(`src/core/base_plugin.py`, lines 38-46). `initialized` carries the
lifecycle flag; the `app` back-reference and logger are orchestration-inert
and omitted. -/
structure Plugin where
  name : String
  version : String
  description : String
  aliases : List String
  priority : Int
  dependencies : List String
  sessionable : Bool
  initialized : Bool
deriving Repr, DecidableEq

/-- The Python exceptions that the orchestration core can raise or that the
spec mentions.

* `valueError` — `raise ValueError(...)` in `load_plugin` (dstone.py line 133).
* `keyError` — a failing dict subscript `self.plugins[dep_name]`
  (dstone.py line 169).
* `typeError` — raised when a callable is invoked with the wrong arity; in
  particular `DependencyError(msg)` at dstone.py line 140 passes one
  positional argument while `DependencyError.__init__` (exceptions.py line
  16) requires `(plugin, dependency, message)`, so the `raise` statement
  itself raises `TypeError` before any `DependencyError` exists.
* `recursionError` — Python stack exhaustion on unbounded recursion.
* `dependencyError` — a successfully constructed `DependencyError` carrying
  `(plugin, dependency, message)` as in `exceptions.py` lines 16-20.
* `pluginNotFoundError` — Modelled from the spec: the spec's §7 error
  taxonomy names a `PluginNotFoundError` class, but no such class exists
  anywhere in the source; the constructor exists here only so that the
  spec's claim about it can be stated and compared with the code. -/
inductive PyErr where
  | valueError (msg : String)
  | keyError (key : String)
  | typeError (msg : String)
  | recursionError
  | dependencyError (plugin : String) (dependency : String) (message : String)
  | pluginNotFoundError
deriving Repr, DecidableEq

/-- Is the error a (successfully constructed) `DependencyError`? -/
def PyErr.isDependencyError : PyErr → Bool
  | .dependencyError _ _ _ => true
  | _ => false

/-- Is the error the spec's `PluginNotFoundError`? -/
def PyErr.isPluginNotFound : PyErr → Bool
  | .pluginNotFoundError => true
  | _ => false

/-- Registry lookup: `self.plugins[n]` / `n in self.plugins`.  The registry
is kept in insertion order and keyed by the `name` field. -/
def lookupPlugin (plugins : List Plugin) (n : String) : Option Plugin :=
  plugins.find? (fun p => p.name == n)

/-- Dict keys are unique: no two registry entries share a `name`. -/
def NamesNodup (plugins : List Plugin) : Prop :=
  (plugins.map Plugin.name).Nodup

instance (plugins : List Plugin) : Decidable (NamesNodup plugins) := by
  unfold NamesNodup; infer_instance

/-- Every declared dependency of every registered plugin is itself a
registry key. -/
def Closed (plugins : List Plugin) : Prop :=
  ∀ p ∈ plugins, ∀ d ∈ p.dependencies, (lookupPlugin plugins d).isSome

instance (plugins : List Plugin) : Decidable (Closed plugins) := by
  unfold Closed; infer_instance

/-- The dependency edge relation of the registry: `a` declares `b`. -/
def depEdge (plugins : List Plugin) (a b : String) : Bool :=
  match lookupPlugin plugins a with
  | some p => p.dependencies.contains b
  | none => false

/-- `isDepWalk plugins w` holds when consecutive entries of `w` are joined
by dependency edges. -/
def isDepWalk (plugins : List Plugin) : List String → Bool
  | [] => true
  | [_] => true
  | a :: b :: rest => depEdge plugins a b && isDepWalk plugins (b :: rest)

/-- The dependency graph is acyclic: no walk revisits a node.  (A cycle
would yield a walk with a repeated entry.) -/
def Acyclic (plugins : List Plugin) : Prop :=
  ∀ w : List String, isDepWalk plugins w = true → w.Nodup

/-- `x` lies on some dependency walk starting at `a` (including `x = a`). -/
def ReachesFrom (plugins : List Plugin) (a x : String) : Prop :=
  ∃ w, isDepWalk plugins (a :: w) = true ∧ x ∈ a :: w

/-- Index of the first occurrence of a name in a call log. -/
def idxOfName : List String → String → Nat
  | [], _ => 0
  | a :: rest, x => if a = x then 0 else idxOfName rest x + 1

/-- `x`'s `execute()` is observed strictly before `y`'s in the call log. -/
def executesBefore (log : List String) (x y : String) : Prop :=
  x ∈ log ∧ y ∈ log ∧ idxOfName log x < idxOfName log y

instance (log : List String) (x y : String) : Decidable (executesBefore log x y) := by
  unfold executesBefore; infer_instance

/-- Invariant of the call log: every logged plugin has all of its declared
dependencies logged strictly earlier. -/
def GoodLog (plugins : List Plugin) (L : List String) : Prop :=
  ∀ a ∈ L, ∀ p, lookupPlugin plugins a = some p → ∀ d ∈ p.dependencies,
    d ∈ L ∧ idxOfName L d < idxOfName L a

/-! ## The execution pass (`DStone.execute_plugins`, dstone.py lines 154-178) -/

/-- The loop `for dep_name in plugin.dependencies` inside
`execute_with_dependencies` (dstone.py lines 168-170): each dependency name
is looked up with a plain dict subscript (`KeyError` when absent) and then
recursively executed.  `rec` is the recursive reference to
`execute_with_dependencies` at the remaining stack budget. -/
def execDeps (plugins : List Plugin)
    (rec : List String → Plugin → Except PyErr (List String)) :
    List String → List String → Except PyErr (List String)
  | executed, [] => .ok executed
  | executed, d :: rest =>
    match lookupPlugin plugins d with
    | none => .error (.keyError d)
    | some q =>
      match rec executed q with
      | .error e => .error e
      | .ok executed2 => execDeps plugins rec executed2 rest

/-- `execute_with_dependencies(plugin)` (dstone.py lines 163-174).  The
`executed` set is the call log: a name is added exactly when the plugin's
`execute()` is invoked, so the log order is the `execute()` call order.
Fuel models the Python call stack. -/
def execOne (plugins : List Plugin) : Nat → List String → Plugin →
    Except PyErr (List String)
  | 0, _, _ => .error .recursionError
  | fuel + 1, executed, p =>
    if p.name ∈ executed then .ok executed
    else
      match execDeps plugins (execOne plugins fuel) executed p.dependencies with
      | .error e => .error e
      | .ok executed2 => .ok (executed2 ++ [p.name])

/-- Stable insertion of a plugin into a priority-ascending list: an element
is placed before the first strictly greater priority, so earlier elements
win ties. -/
def insertByPriority (p : Plugin) : List Plugin → List Plugin
  | [] => [p]
  | q :: rest =>
    if p.priority ≤ q.priority then p :: q :: rest
    else q :: insertByPriority p rest

/-- `sorted(self.plugins.values(), key=lambda x: x.priority)` (dstone.py
line 159).  Python's `sorted` is a stable ascending sort; a stable sort's
output is uniquely determined by the input, and is embedded here as stable
insertion sort. -/
def sortedByPriority (plugins : List Plugin) : List Plugin :=
  plugins.foldr insertByPriority []

/-- The driving loop `for plugin in sorted_plugins:
execute_with_dependencies(plugin)` (dstone.py lines 177-178). -/
def execDriver (plugins : List Plugin) (fuel : Nat) :
    List Plugin → List String → Except PyErr (List String)
  | [], executed => .ok executed
  | p :: rest, executed =>
    match execOne plugins fuel executed p with
    | .error e => .error e
    | .ok executed2 => execDriver plugins fuel rest executed2

/-- `DStone.execute_plugins` (dstone.py lines 154-178): sort by priority,
then run the dependency-first traversal from an empty `executed` set.
The result is the ordered log of `execute()` calls.  A stack budget of one
frame per registered plugin is enough for every terminating run (an acyclic
graph never nests deeper than the number of plugins). -/
def execute_plugins (plugins : List Plugin) : Except PyErr (List String) :=
  execDriver plugins plugins.length (sortedByPriority plugins) []

/-- Does the run abort with a `KeyError`? -/
def isKeyErrorResult : Except PyErr (List String) → Bool
  | .error (.keyError _) => true
  | _ => false

/-! ## Resolution (`DStone.load_plugin` / `load_all_plugins`, dstone.py lines 121-152) -/

/-- `plugin.initialized = True` (dstone.py line 144): mutate the registry
entry named `n`. -/
def setInitialized (st : List Plugin) (n : String) : List Plugin :=
  st.map (fun p => if p.name == n then { p with initialized := true } else p)

/-- The dependency loop of `load_plugin` (dstone.py lines 138-142).  A
missing dependency reaches `raise DependencyError(f"...")`, which calls the
three-parameter `DependencyError.__init__` (exceptions.py line 16) with a
single positional argument — so Python raises `TypeError` at the `raise`
site and no `DependencyError` is ever constructed.  An uninitialized
dependency is loaded recursively through `rec`. -/
def loadDeps (rec : List Plugin → String → Except PyErr (List Plugin)) :
    List Plugin → List String → Except PyErr (List Plugin)
  | st, [] => .ok st
  | st, d :: rest =>
    match lookupPlugin st d with
    | none => .error (.typeError
        "DependencyError.__init__ missing 2 required positional arguments: dependency and message")
    | some q =>
      if q.initialized then loadDeps rec st rest
      else
        match rec st d with
        | .error e => .error e
        | .ok st2 => loadDeps rec st2 rest

/-- `DStone.load_plugin` (dstone.py lines 121-144): unknown names raise
`ValueError(f"Plugin {plugin_name} not found")`; then the dependency loop
runs; then the plugin is marked initialized. -/
def load_plugin : Nat → List Plugin → String → Except PyErr (List Plugin)
  | 0, _, _ => .error .recursionError
  | fuel + 1, st, name =>
    match lookupPlugin st name with
    | none => .error (.valueError ("Plugin " ++ name ++ " not found"))
    | some p =>
      match loadDeps (load_plugin fuel) st p.dependencies with
      | .error e => .error e
      | .ok st2 => .ok (setInitialized st2 name)

/-- The loop of `load_all_plugins` (dstone.py lines 150-152) generalized
over the iteration order of the key view: each name whose plugin is not yet
initialized is loaded. -/
def load_all_from (fuel : Nat) : List Plugin → List String → Except PyErr (List Plugin)
  | st, [] => .ok st
  | st, n :: rest =>
    match lookupPlugin st n with
    | none => .error (.keyError n)
    | some p =>
      if p.initialized then load_all_from fuel st rest
      else
        match load_plugin fuel st n with
        | .error e => .error e
        | .ok st2 => load_all_from fuel st2 rest

/-- `DStone.load_all_plugins` (dstone.py lines 146-152): iterate the dict
keys in registry order. -/
def load_all_plugins (st : List Plugin) : Except PyErr (List Plugin) :=
  load_all_from st.length st (st.map Plugin.name)

/-! ## Registration and discovery (dstone.py lines 78-119, base_plugin.py lines 151-189) -/

/-- The class-level attributes a plugin class may declare, as probed by
`getattr` in `register_plugin`.  The fields beyond `version` and
`description` model class-level declarations that `register_plugin` never
reads. -/
structure PluginClass where
  version : Option String
  description : Option String
  aliases : Option (List String)
  priority : Option Int
  dependencies : Option (List String)
  sessionable : Option Bool
deriving Repr, DecidableEq

/-- `BasePlugin.create` composed with `BasePlugin.__init__`
(base_plugin.py lines 48-78 and 151-189): `None` optional arguments become
`[]` (via `aliases or []`, `dependencies or []`), and the dataclass default
leaves `initialized` false on the fresh instance. -/
def BasePlugin.create (name version description : String)
    (aliases : Option (List String)) (priority : Int)
    (dependencies : Option (List String)) (sessionable : Bool) : Plugin :=
  { name := name
    version := version
    description := description
    aliases := aliases.getD []
    priority := priority
    dependencies := dependencies.getD []
    sessionable := sessionable
    initialized := false }

/-- The dict assignment `self.plugins[key] = inst`: replace in place when
the key exists, else append. -/
def dictInsert (registry : List Plugin) (inst : Plugin) : List Plugin :=
  if registry.any (fun p => p.name == inst.name) then
    registry.map (fun p => if p.name == inst.name then inst else p)
  else registry ++ [inst]

/-- `DStone.register_plugin` (dstone.py lines 106-119): the factory is
called with exactly `name`, `version` (defaulted to "0.1"), `description`
(defaulted to a placeholder) and the host; every other factory parameter is
left at its default, whatever the class declares. -/
def register_plugin (registry : List Plugin) (plugin_name : String)
    (cls : PluginClass) : List Plugin :=
  let inst := BasePlugin.create plugin_name
    (cls.version.getD "0.1")
    (cls.description.getD "No description provided")
    none 0 none false
  dictInsert registry inst

/-- Modelled from the spec: §4.2's `Register` as the spec words it —
"constructs one Plugin instance via a factory that passes
(name, version, description, host, aliases, priority, dependencies,
sessionable)" — i.e. forwarding every descriptor field declared on the
class to the factory.  Defined only for comparison with the source's
`register_plugin`. -/
def register_plugin_specModel (registry : List Plugin) (plugin_name : String)
    (cls : PluginClass) : List Plugin :=
  let inst := BasePlugin.create plugin_name
    (cls.version.getD "0.1")
    (cls.description.getD "No description provided")
    cls.aliases (cls.priority.getD 0) cls.dependencies (cls.sessionable.getD false)
  dictInsert registry inst

/-- One candidate plugin directory as seen by `discover_plugins`: its
directory name, plus the exported `plugin_class` attributes when the
directory has an `__init__.py` that defines a `BasePlugin` subclass under
`plugin_class` (`none` collapses the three skip cases of dstone.py lines
94-104). -/
structure PluginDir where
  dirname : String
  pluginClass : Option PluginClass
deriving Repr, DecidableEq

/-- `DStone.discover_plugins` (dstone.py lines 78-104): each qualifying
directory is registered under the module name
`f"src.plugins.{dirname}"`. -/
def discover_plugins (dirs : List PluginDir) (registry : List Plugin) : List Plugin :=
  dirs.foldl
    (fun reg dir =>
      match dir.pluginClass with
      | some cls => register_plugin reg ("src.plugins." ++ dir.dirname) cls
      | none => reg)
    registry

/-! ## Proof-side definitions -/

/-- The recursion budget `fuel` dominates every dependency walk out of `a`. -/
def BoundedFrom (plugins : List Plugin) (fuel : Nat) (a : String) : Prop :=
  ∀ w, isDepWalk plugins (a :: w) = true → w.length < fuel

/-- What one successful `execute_with_dependencies(p)` call guarantees:
the log is only appended to, stays duplicate-free and dependency-ordered,
ends up containing `p`, and every new entry is reachable from `p`. -/
structure OnePost (plugins : List Plugin) (p : Plugin) (e r : List String) : Prop where
  ext : ∃ t, r = e ++ t
  nodup : r.Nodup
  good : GoodLog plugins r
  selfMem : p.name ∈ r
  reach : ∀ x ∈ r, x ∈ e ∨ ReachesFrom plugins p.name x

/-- What one successful pass over a dependency list guarantees. -/
structure DepsPost (plugins : List Plugin) (deps : List String) (e r : List String) : Prop where
  ext : ∃ t, r = e ++ t
  nodup : r.Nodup
  good : GoodLog plugins r
  depsMem : ∀ d ∈ deps, d ∈ r
  reach : ∀ x ∈ r, x ∈ e ∨ ∃ d ∈ deps, ReachesFrom plugins d x

/-- Priority comparison used by the sort (lower value first). -/
def PrioLE (a b : Plugin) : Prop := a.priority ≤ b.priority

/-- Proof-side description of the registry after some set of plugins got
their `initialized` flag set: `markInited st S` marks exactly the names in
`S`. -/
def markInited (st : List Plugin) (S : List String) : List Plugin :=
  st.map (fun p => if p.name ∈ S then { p with initialized := true } else p)

/-- A recursive loader (at a given stack budget) correctly initializes any
registered name whose dependency walks it dominates. -/
def LoadRecOK (base : List Plugin) (fuel : Nat)
    (rec : List Plugin → String → Except PyErr (List Plugin)) : Prop :=
  ∀ (S : List String) (n : String) (p : Plugin), lookupPlugin base n = some p →
    BoundedFrom base fuel n →
    ∃ S2, rec (markInited base S) n = .ok (markInited base S2) ∧ S ⊆ S2 ∧ n ∈ S2

/-- C4 counterexample data: `cexA` (priority 0) depends on `cexC`
(priority 5); `cexB` (priority 3) is independent of both. -/
def cexA : Plugin := ⟨"A", "0.1", "d", [], 0, ["C"], false, false⟩

def cexB : Plugin := ⟨"B", "0.1", "d", [], 3, [], false, false⟩

def cexC : Plugin := ⟨"C", "0.1", "d", [], 5, [], false, false⟩

/-- The `plugin_class` attributes of the bundled dummy plugin
(`src/plugins/dummy/dummy.py`): the class declares neither `version` nor
`description` (the module-level `plugin_version` etc. are not class
attributes), and none of the other descriptor fields. -/
def dummyCls : PluginClass := ⟨none, none, none, none, none, none⟩

/-- A plugin class declaring every optional descriptor field, used to
separate `register_plugin` from the spec's description of it. -/
def richCls : PluginClass :=
  ⟨some "2.0", some "rich", some ["alias1"], some 7, some ["dep1"], some true⟩

/-! ## Basic registry lemmas -/

theorem lookup_mem {plugins : List Plugin} {n : String} {q : Plugin}
    (h : lookupPlugin plugins n = some q) : q ∈ plugins :=
  List.mem_of_find?_eq_some h

theorem lookup_name {plugins : List Plugin} {n : String} {q : Plugin}
    (h : lookupPlugin plugins n = some q) : q.name = n := by
  unfold lookupPlugin at h
  have h2 := List.find?_some h
  simp only [beq_iff_eq] at h2
  exact h2

theorem lookup_self {plugins : List Plugin} (hN : NamesNodup plugins)
    {p : Plugin} (hp : p ∈ plugins) : lookupPlugin plugins p.name = some p := by
  induction plugins with
  | nil => cases hp
  | cons q rest ih =>
    have hN0 : q.name ∉ rest.map Plugin.name ∧ (rest.map Plugin.name).Nodup := by
      have h := hN
      unfold NamesNodup at h
      simpa [List.nodup_cons] using h
    rcases List.mem_cons.mp hp with rfl | hmem
    · unfold lookupPlugin
      exact List.find?_cons_of_pos _ (by simp)
    · have hne : (q.name == p.name) = false := by
        rw [beq_eq_false_iff_ne]
        intro he
        exact hN0.1 (he ▸ List.mem_map_of_mem Plugin.name hmem)
      unfold lookupPlugin
      rw [List.find?_cons_of_neg _ (by simp [hne])]
      exact ih hN0.2 hmem

theorem name_inj {plugins : List Plugin} (hN : NamesNodup plugins)
    {p q : Plugin} (hp : p ∈ plugins) (hq : q ∈ plugins)
    (h : p.name = q.name) : p = q := by
  have h1 := lookup_self hN hp
  have h2 := lookup_self hN hq
  rw [h, h2] at h1
  exact (Option.some.inj h1).symm

theorem lookup_isSome_of_mem {plugins : List Plugin} {p : Plugin}
    (hp : p ∈ plugins) : (lookupPlugin plugins p.name).isSome := by
  unfold lookupPlugin
  rw [List.find?_isSome]
  exact ⟨p, hp, by simp⟩

theorem names_nodup_elements {plugins : List Plugin} (hN : NamesNodup plugins) :
    plugins.Nodup :=
  List.Nodup.of_map _ hN

/-! ## Call-log index lemmas -/

theorem idxOfName_append_left {l₁ : List String} (l₂ : List String) {x : String}
    (h : x ∈ l₁) : idxOfName (l₁ ++ l₂) x = idxOfName l₁ x := by
  induction l₁ with
  | nil => cases h
  | cons a rest ih =>
    by_cases hax : a = x
    · simp [idxOfName, hax]
    · rcases List.mem_cons.mp h with rfl | hm
      · exact absurd rfl hax
      · simp [idxOfName, hax, ih hm]

theorem idxOfName_lt_length {l : List String} {x : String} (h : x ∈ l) :
    idxOfName l x < l.length := by
  induction l with
  | nil => cases h
  | cons a rest ih =>
    by_cases hax : a = x
    · simp [idxOfName, hax]
    · rcases List.mem_cons.mp h with rfl | hm
      · exact absurd rfl hax
      · simpa [idxOfName, hax] using ih hm

theorem idxOfName_append_self {l₁ l₂ : List String} {x : String} (h : x ∉ l₁) :
    idxOfName (l₁ ++ x :: l₂) x = l₁.length := by
  induction l₁ with
  | nil => simp [idxOfName]
  | cons a rest ih =>
    have hax : ¬ a = x := by
      intro he
      exact h (he ▸ List.mem_cons_self a rest)
    simp only [List.cons_append, idxOfName, if_neg hax, List.length_cons]
    exact congrArg (· + 1) (ih fun hm => h (List.mem_cons_of_mem a hm))

theorem executesBefore_of_split {L l₁ l₂ : List String} {x y : String}
    (hnd : L.Nodup) (hL : L = l₁ ++ y :: l₂) (hx : x ∈ l₁) :
    executesBefore L x y := by
  subst hL
  have hy1 : y ∉ l₁ := by
    intro hy
    rcases List.nodup_append.mp hnd with ⟨_, _, hdisj⟩
    exact hdisj hy (List.mem_cons_self y l₂)
  refine ⟨List.mem_append_left _ hx, List.mem_append_right _ (List.mem_cons_self y l₂), ?_⟩
  rw [idxOfName_append_left _ hx, idxOfName_append_self hy1]
  exact idxOfName_lt_length hx

/-! ## Dependency-walk lemmas -/

theorem depEdge_elim {plugins : List Plugin} {a b : String}
    (h : depEdge plugins a b = true) :
    ∃ p, lookupPlugin plugins a = some p ∧ b ∈ p.dependencies := by
  unfold depEdge at h
  rcases hl : lookupPlugin plugins a with _ | p
  · rw [hl] at h
    cases h
  · rw [hl] at h
    exact ⟨p, rfl, by simpa using h⟩

theorem depEdge_intro {plugins : List Plugin} {a b : String} {p : Plugin}
    (h : lookupPlugin plugins a = some p) (hd : b ∈ p.dependencies) :
    depEdge plugins a b = true := by
  unfold depEdge
  rw [h]
  simpa using hd

theorem isDepWalk_cons_cons {plugins : List Plugin} {a b : String} {w : List String} :
    isDepWalk plugins (a :: b :: w) = true ↔
      depEdge plugins a b = true ∧ isDepWalk plugins (b :: w) = true := by
  simp [isDepWalk]

theorem isDepWalk_tail {plugins : List Plugin} {a : String} {w : List String}
    (h : isDepWalk plugins (a :: w) = true) : isDepWalk plugins w = true := by
  cases w with
  | nil => rfl
  | cons b rest => exact (isDepWalk_cons_cons.mp h).2

theorem walk_edge_into {plugins : List Plugin} :
    ∀ (w : List String) (a x : String), isDepWalk plugins (a :: w) = true → x ∈ w →
      ∃ c, depEdge plugins c x = true := by
  intro w
  induction w with
  | nil =>
    intro a x _ hx
    cases hx
  | cons b rest ih =>
    intro a x hw hx
    have hs := isDepWalk_cons_cons.mp hw
    rcases List.mem_cons.mp hx with rfl | hm
    · exact ⟨a, hs.1⟩
    · exact ih b x hs.2 hm

theorem walk_names {plugins : List Plugin} (hC : Closed plugins) :
    ∀ (w : List String) (a : String), (lookupPlugin plugins a).isSome →
      isDepWalk plugins (a :: w) = true →
      ∀ x ∈ a :: w, x ∈ plugins.map Plugin.name := by
  intro w
  induction w with
  | nil =>
    intro a ha _ x hx
    rcases List.mem_cons.mp hx with rfl | hfalse
    · rcases Option.isSome_iff_exists.mp ha with ⟨q, hq⟩
      exact (lookup_name hq) ▸ List.mem_map_of_mem Plugin.name (lookup_mem hq)
    · cases hfalse
  | cons b rest ih =>
    intro a ha hw x hx
    have hs := isDepWalk_cons_cons.mp hw
    rcases depEdge_elim hs.1 with ⟨p, hp, hbd⟩
    have hb : (lookupPlugin plugins b).isSome := hC p (lookup_mem hp) b hbd
    rcases List.mem_cons.mp hx with rfl | hm
    · rcases Option.isSome_iff_exists.mp ha with ⟨q, hq⟩
      exact (lookup_name hq) ▸ List.mem_map_of_mem Plugin.name (lookup_mem hq)
    · exact ih b hb hs.2 x hm

theorem walk_length_le {plugins : List Plugin}
    (hC : Closed plugins) (hA : Acyclic plugins) {a : String}
    (ha : (lookupPlugin plugins a).isSome) {w : List String}
    (hw : isDepWalk plugins (a :: w) = true) :
    (a :: w).length ≤ plugins.length := by
  have hnd : (a :: w).Nodup := hA _ hw
  have hsub : (a :: w) ⊆ plugins.map Plugin.name :=
    fun x hx => walk_names hC w a ha hw x hx
  have hle := (List.subperm_of_subset hnd hsub).length_le
  simpa using hle

theorem bounded_of_acyclic {plugins : List Plugin}
    (hC : Closed plugins) (hA : Acyclic plugins) {p : Plugin} (hp : p ∈ plugins) :
    BoundedFrom plugins plugins.length p.name := by
  intro w hw
  have := walk_length_le hC hA (lookup_isSome_of_mem hp) hw
  simpa [Nat.succ_le_iff] using this

theorem bounded_step {plugins : List Plugin} {fuel : Nat} {a b : String}
    (hedge : depEdge plugins a b = true) (h : BoundedFrom plugins (fuel + 1) a) :
    BoundedFrom plugins fuel b := by
  intro w hw
  have hw2 : isDepWalk plugins (a :: b :: w) = true :=
    isDepWalk_cons_cons.mpr ⟨hedge, hw⟩
  have := h (b :: w) hw2
  simpa [Nat.succ_lt_succ_iff] using this

/-- A registry with a rank function that strictly decreases along every
declared dependency is acyclic. -/
theorem acyclic_of_rank (plugins : List Plugin) (rank : String → Nat)
    (hrank : ∀ p ∈ plugins, ∀ d ∈ p.dependencies, rank d < rank p.name) :
    Acyclic plugins := by
  have hdec : ∀ a b, depEdge plugins a b = true → rank b < rank a := by
    intro a b h
    rcases depEdge_elim h with ⟨p, hp, hd⟩
    exact (lookup_name hp) ▸ hrank p (lookup_mem hp) b hd
  have hgt : ∀ (w : List String) (a : String), isDepWalk plugins (a :: w) = true →
      ∀ x ∈ w, rank x < rank a := by
    intro w
    induction w with
    | nil =>
      intro a _ x hx
      cases hx
    | cons b rest ih =>
      intro a hw x hx
      have hs := isDepWalk_cons_cons.mp hw
      rcases List.mem_cons.mp hx with rfl | hm
      · exact hdec a x hs.1
      · exact Nat.lt_trans (ih b hs.2 x hm) (hdec a b hs.1)
  intro w hw
  induction w with
  | nil => exact List.nodup_nil
  | cons a rest ih =>
    rw [List.nodup_cons]
    refine ⟨?_, ih (isDepWalk_tail hw)⟩
    intro hmem
    exact Nat.lt_irrefl _ (hgt rest a hw a hmem)

/-! ## Reachability lemmas -/

theorem reaches_self (plugins : List Plugin) (a : String) :
    ReachesFrom plugins a a :=
  ⟨[], rfl, List.mem_singleton_self a⟩

theorem reaches_step {plugins : List Plugin} {a b x : String}
    (hedge : depEdge plugins a b = true) (h : ReachesFrom plugins b x) :
    ReachesFrom plugins a x := by
  rcases h with ⟨w, hw, hx⟩
  exact ⟨b :: w, isDepWalk_cons_cons.mpr ⟨hedge, hw⟩, List.mem_cons_of_mem a hx⟩

theorem reaches_elim {plugins : List Plugin} {a x : String}
    (h : ReachesFrom plugins a x) :
    x = a ∨ ∃ p ∈ plugins, x ∈ p.dependencies := by
  rcases h with ⟨w, hw, hx⟩
  rcases List.mem_cons.mp hx with rfl | hxw
  · exact Or.inl rfl
  · rcases walk_edge_into w a x hw hxw with ⟨c, hc⟩
    rcases depEdge_elim hc with ⟨p, hp, hd⟩
    exact Or.inr ⟨p, lookup_mem hp, hd⟩

/-! ## Postconditions of the execution pass -/

theorem goodLog_append {plugins : List Plugin} {L : List String} {p : Plugin}
    (hg : GoodLog plugins L) (hN : NamesNodup plugins) (hp : p ∈ plugins)
    (hdeps : ∀ d ∈ p.dependencies, d ∈ L) (hnotin : p.name ∉ L) :
    GoodLog plugins (L ++ [p.name]) := by
  intro a ha pa hpa d hd
  rcases List.mem_append.mp ha with haL | hasingle
  · have h1 := hg a haL pa hpa d hd
    refine ⟨List.mem_append_left _ h1.1, ?_⟩
    rw [idxOfName_append_left _ h1.1, idxOfName_append_left _ haL]
    exact h1.2
  · have ha2 : a = p.name := List.mem_singleton.mp hasingle
    subst ha2
    have hpa2 : pa = p := by
      have hself := lookup_self hN hp
      rw [hself] at hpa
      exact (Option.some.inj hpa).symm
    subst hpa2
    have hdL : d ∈ L := hdeps d hd
    refine ⟨List.mem_append_left _ hdL, ?_⟩
    rw [idxOfName_append_left _ hdL, idxOfName_append_self hnotin]
    exact idxOfName_lt_length hdL

theorem execDeps_cons_none {plugins : List Plugin}
    {rec : List String → Plugin → Except PyErr (List String)}
    {e : List String} {d : String} {rest : List String}
    (h : lookupPlugin plugins d = none) :
    execDeps plugins rec e (d :: rest) = .error (.keyError d) := by
  simp only [execDeps, h]

theorem execDeps_cons_some {plugins : List Plugin}
    {rec : List String → Plugin → Except PyErr (List String)}
    {e : List String} {d : String} {rest : List String} {q : Plugin}
    (h : lookupPlugin plugins d = some q) :
    execDeps plugins rec e (d :: rest) =
      match rec e q with
      | .error err => .error err
      | .ok e2 => execDeps plugins rec e2 rest := by
  simp only [execDeps, h]

theorem execDeps_spec (plugins : List Plugin)
    (rec : List String → Plugin → Except PyErr (List String))
    (hrec : ∀ e q r, q ∈ plugins → e.Nodup → GoodLog plugins e →
      rec e q = .ok r → OnePost plugins q e r) :
    ∀ (deps : List String) (e r : List String), e.Nodup → GoodLog plugins e →
      execDeps plugins rec e deps = .ok r → DepsPost plugins deps e r := by
  intro deps
  induction deps with
  | nil =>
    intro e r hnd hg hres
    simp only [execDeps] at hres
    injection hres with hres
    subst hres
    exact ⟨⟨[], by simp⟩, hnd, hg, fun d hd => absurd hd (List.not_mem_nil d),
      fun x hx => Or.inl hx⟩
  | cons d rest ih =>
    intro e r hnd hg hres
    cases hl : lookupPlugin plugins d with
    | none =>
      rw [execDeps_cons_none hl] at hres
      cases hres
    | some q =>
      cases hr1 : rec e q with
      | error err =>
        rw [execDeps_cons_some hl] at hres
        simp only [hr1] at hres
        cases hres
      | ok r1 =>
        rw [execDeps_cons_some hl] at hres
        simp only [hr1] at hres
        have hq := hrec e q r1 (lookup_mem hl) hnd hg hr1
        have hrest := ih r1 r hq.nodup hq.good hres
        have hqname : q.name = d := lookup_name hl
        refine ⟨?_, hrest.nodup, hrest.good, ?_, ?_⟩
        · rcases hq.ext with ⟨t1, ht1⟩
          rcases hrest.ext with ⟨t2, ht2⟩
          exact ⟨t1 ++ t2, by rw [ht2, ht1, List.append_assoc]⟩
        · intro d2 hd2
          rcases List.mem_cons.mp hd2 with rfl | hm
          · rcases hrest.ext with ⟨t2, ht2⟩
            exact ht2 ▸ List.mem_append_left _ (hqname ▸ hq.selfMem)
          · exact hrest.depsMem d2 hm
        · intro x hx
          rcases hrest.reach x hx with hx1 | ⟨d2, hd2, hrch⟩
          · rcases hq.reach x hx1 with hx0 | hrch
            · exact Or.inl hx0
            · exact Or.inr ⟨d, List.mem_cons_self d rest, hqname ▸ hrch⟩
          · exact Or.inr ⟨d2, List.mem_cons_of_mem d hd2, hrch⟩

theorem execOne_zero {plugins : List Plugin} {e : List String} {p : Plugin} :
    execOne plugins 0 e p = .error .recursionError := rfl

theorem execOne_succ_mem {plugins : List Plugin} {fuel : Nat}
    {e : List String} {p : Plugin} (h : p.name ∈ e) :
    execOne plugins (fuel + 1) e p = .ok e := by
  simp [execOne, h]

theorem execOne_succ_new {plugins : List Plugin} {fuel : Nat}
    {e : List String} {p : Plugin} (h : p.name ∉ e) :
    execOne plugins (fuel + 1) e p =
      match execDeps plugins (execOne plugins fuel) e p.dependencies with
      | .error err => .error err
      | .ok e2 => .ok (e2 ++ [p.name]) := by
  simp [execOne, h]

theorem execOne_spec {plugins : List Plugin} (hN : NamesNodup plugins)
    (hA : Acyclic plugins) :
    ∀ (fuel : Nat) (e : List String) (p : Plugin) (r : List String),
      p ∈ plugins → e.Nodup → GoodLog plugins e →
      execOne plugins fuel e p = .ok r → OnePost plugins p e r := by
  intro fuel
  induction fuel with
  | zero =>
    intro e p r _ _ _ hres
    rw [execOne_zero] at hres
    cases hres
  | succ fuel ih =>
    intro e p r hp hnd hg hres
    by_cases hmem : p.name ∈ e
    · rw [execOne_succ_mem hmem] at hres
      injection hres with hres
      subst hres
      exact ⟨⟨[], by simp⟩, hnd, hg, hmem, fun x hx => Or.inl hx⟩
    · cases hdeps : execDeps plugins (execOne plugins fuel) e p.dependencies with
      | error err =>
        rw [execOne_succ_new hmem] at hres
        simp only [hdeps] at hres
        cases hres
      | ok r2 =>
        rw [execOne_succ_new hmem] at hres
        simp only [hdeps] at hres
        injection hres with hres
        subst hres
        have hpost := execDeps_spec plugins (execOne plugins fuel)
          (fun e2 q2 r3 hq2 hnd2 hg2 hres2 => ih e2 q2 r3 hq2 hnd2 hg2 hres2)
          p.dependencies e r2 hnd hg hdeps
        have hnotin : p.name ∉ r2 := by
          intro hin
          rcases hpost.reach p.name hin with h1 | ⟨d, hd, hrch⟩
          · exact hmem h1
          · have hedge : depEdge plugins p.name d = true :=
              depEdge_intro (lookup_self hN hp) hd
            rcases hrch with ⟨w, hw, hxin⟩
            have hw2 : isDepWalk plugins (p.name :: d :: w) = true :=
              isDepWalk_cons_cons.mpr ⟨hedge, hw⟩
            have hnd2 := hA _ hw2
            rw [List.nodup_cons] at hnd2
            exact hnd2.1 hxin
        refine ⟨?_, ?_, ?_, ?_, ?_⟩
        · rcases hpost.ext with ⟨t, ht⟩
          exact ⟨t ++ [p.name], by rw [ht, List.append_assoc]⟩
        · rw [List.nodup_append]
          exact ⟨hpost.nodup, List.nodup_singleton _,
            fun x hx hx2 => hnotin ((List.mem_singleton.mp hx2) ▸ hx)⟩
        · exact goodLog_append hpost.good hN hp hpost.depsMem hnotin
        · exact List.mem_append_right _ (List.mem_singleton_self _)
        · intro x hx
          rcases List.mem_append.mp hx with hx2 | hxs
          · rcases hpost.reach x hx2 with h1 | ⟨d, hd, hrch⟩
            · exact Or.inl h1
            · exact Or.inr (reaches_step (depEdge_intro (lookup_self hN hp) hd) hrch)
          · exact Or.inr ((List.mem_singleton.mp hxs) ▸ reaches_self plugins p.name)

/-! ## Termination of the execution pass on acyclic, closed registries -/

theorem execDeps_ok (plugins : List Plugin) (fuel : Nat)
    (rec : List String → Plugin → Except PyErr (List String))
    (hrec : ∀ (e : List String) (q : Plugin), q ∈ plugins →
      BoundedFrom plugins fuel q.name → ∃ r, rec e q = .ok r) :
    ∀ (deps : List String) (e : List String),
      (∀ d ∈ deps, (lookupPlugin plugins d).isSome ∧ BoundedFrom plugins fuel d) →
      ∃ r, execDeps plugins rec e deps = .ok r := by
  intro deps
  induction deps with
  | nil =>
    intro e _
    exact ⟨e, rfl⟩
  | cons d rest ih =>
    intro e hdeps
    have hd := hdeps d (List.mem_cons_self d rest)
    rcases Option.isSome_iff_exists.mp hd.1 with ⟨q, hq⟩
    have hqb : BoundedFrom plugins fuel q.name := (lookup_name hq) ▸ hd.2
    rcases hrec e q (lookup_mem hq) hqb with ⟨r1, hr1⟩
    rcases ih r1 (fun d2 hd2 => hdeps d2 (List.mem_cons_of_mem d hd2)) with ⟨r, hr⟩
    exact ⟨r, by simp only [execDeps, hq, hr1]; exact hr⟩

theorem execOne_ok {plugins : List Plugin} (hN : NamesNodup plugins)
    (hC : Closed plugins) :
    ∀ (fuel : Nat) (e : List String) (p : Plugin), p ∈ plugins →
      BoundedFrom plugins fuel p.name → ∃ r, execOne plugins fuel e p = .ok r := by
  intro fuel
  induction fuel with
  | zero =>
    intro e p _ hb
    exact absurd (hb [] rfl) (Nat.lt_irrefl 0)
  | succ fuel ih =>
    intro e p hp hb
    by_cases hmem : p.name ∈ e
    · exact ⟨e, by simp only [execOne, if_pos hmem]⟩
    · have hdeps : ∀ d ∈ p.dependencies,
          (lookupPlugin plugins d).isSome ∧ BoundedFrom plugins fuel d := by
        intro d hd
        exact ⟨hC p hp d hd,
          bounded_step (depEdge_intro (lookup_self hN hp) hd) hb⟩
      rcases execDeps_ok plugins fuel (execOne plugins fuel)
        (fun e2 q hq hbq => ih e2 q hq hbq) p.dependencies e hdeps with ⟨r2, hr2⟩
      exact ⟨r2 ++ [p.name], by simp only [execOne, if_neg hmem, hr2]⟩

/-! ## The driving loop -/

theorem execDriver_spec {plugins : List Plugin} (hN : NamesNodup plugins)
    (hC : Closed plugins) (hA : Acyclic plugins) :
    ∀ (l : List Plugin) (e : List String), (∀ p ∈ l, p ∈ plugins) →
      e.Nodup → GoodLog plugins e →
      ∃ L, execDriver plugins plugins.length l e = .ok L ∧
        (∃ t, L = e ++ t) ∧ L.Nodup ∧ GoodLog plugins L ∧
        (∀ p ∈ l, p.name ∈ L) ∧
        (∀ x ∈ L, x ∈ e ∨ ∃ p ∈ l, ReachesFrom plugins p.name x) := by
  intro l
  induction l with
  | nil =>
    intro e _ hnd hg
    exact ⟨e, rfl, ⟨[], by simp⟩, hnd, hg, fun p hp => absurd hp (List.not_mem_nil p),
      fun x hx => Or.inl hx⟩
  | cons p rest ih =>
    intro e hl hnd hg
    have hp : p ∈ plugins := hl p (List.mem_cons_self p rest)
    rcases execOne_ok hN hC plugins.length e p hp (bounded_of_acyclic hC hA hp) with ⟨r, hr⟩
    have hpost := execOne_spec hN hA plugins.length e p r hp hnd hg hr
    rcases ih r (fun q hq => hl q (List.mem_cons_of_mem p hq)) hpost.nodup hpost.good with
      ⟨L, hL, hLext, hLnd, hLg, hLall, hLreach⟩
    refine ⟨L, ?_, ?_, hLnd, hLg, ?_, ?_⟩
    · simp only [execDriver, hr]
      exact hL
    · rcases hpost.ext with ⟨t1, ht1⟩
      rcases hLext with ⟨t2, ht2⟩
      exact ⟨t1 ++ t2, by rw [ht2, ht1, List.append_assoc]⟩
    · intro q hq
      rcases List.mem_cons.mp hq with rfl | hm
      · rcases hLext with ⟨t2, ht2⟩
        exact ht2 ▸ List.mem_append_left _ hpost.selfMem
      · exact hLall q hm
    · intro x hx
      rcases hLreach x hx with hxr | ⟨q, hq, hrch⟩
      · rcases hpost.reach x hxr with hxe | hrch
        · exact Or.inl hxe
        · exact Or.inr ⟨p, List.mem_cons_self p rest, hrch⟩
      · exact Or.inr ⟨q, List.mem_cons_of_mem p hq, hrch⟩

/-! ## The priority sort -/

theorem insertByPriority_perm (p : Plugin) (l : List Plugin) :
    (insertByPriority p l).Perm (p :: l) := by
  induction l with
  | nil => exact List.Perm.refl _
  | cons q rest ih =>
    by_cases h : p.priority ≤ q.priority
    · simp only [insertByPriority, if_pos h]
      exact List.Perm.refl _
    · simp only [insertByPriority, if_neg h]
      exact (ih.cons q).trans (List.Perm.swap p q rest)

theorem sortedByPriority_perm (plugins : List Plugin) :
    (sortedByPriority plugins).Perm plugins := by
  induction plugins with
  | nil => exact List.Perm.refl _
  | cons p rest ih =>
    have h1 : sortedByPriority (p :: rest) = insertByPriority p (sortedByPriority rest) := rfl
    rw [h1]
    exact (insertByPriority_perm p (sortedByPriority rest)).trans (ih.cons p)

theorem pairwise_insertByPriority {p : Plugin} {l : List Plugin}
    (h : l.Pairwise PrioLE) : (insertByPriority p l).Pairwise PrioLE := by
  induction l with
  | nil => simp [insertByPriority, List.pairwise_cons]
  | cons q rest ih =>
    rcases List.pairwise_cons.mp h with ⟨hq, hrest⟩
    by_cases hle : p.priority ≤ q.priority
    · simp only [insertByPriority, if_pos hle]
      refine List.pairwise_cons.mpr ⟨?_, h⟩
      intro x hx
      rcases List.mem_cons.mp hx with rfl | hm
      · exact hle
      · exact le_trans hle (hq x hm)
    · simp only [insertByPriority, if_neg hle]
      refine List.pairwise_cons.mpr ⟨?_, ih hrest⟩
      intro x hx
      have hx2 : x = p ∨ x ∈ rest := by
        have := (insertByPriority_perm p rest).mem_iff.mp hx
        simpa using this
      rcases hx2 with rfl | hm
      · exact le_of_not_le hle
      · exact hq x hm

theorem sortedByPriority_sorted (plugins : List Plugin) :
    (sortedByPriority plugins).Pairwise PrioLE := by
  induction plugins with
  | nil => exact List.Pairwise.nil
  | cons p rest ih => exact pairwise_insertByPriority ih

/-- In a priority-sorted duplicate-free list, a strictly lower priority
element sits strictly earlier. -/
theorem sorted_split {l : List Plugin} {A B : Plugin}
    (hs : l.Pairwise PrioLE) (hA : A ∈ l) (hB : B ∈ l)
    (hlt : A.priority < B.priority) :
    ∃ l₁ l₂, l = l₁ ++ A :: l₂ ∧ B ∈ l₂ := by
  rcases List.append_of_mem hA with ⟨s, t, rfl⟩
  rcases List.mem_append.mp hB with hBs | hBat
  · exfalso
    rcases List.pairwise_append.mp hs with ⟨_, _, hcross⟩
    have : B.priority ≤ A.priority := hcross B hBs A (List.mem_cons_self A t)
    exact absurd hlt (not_lt_of_le this)
  · rcases List.mem_cons.mp hBat with rfl | hBt
    · exact absurd hlt (lt_irrefl _)
    · exact ⟨s, t, rfl, hBt⟩

theorem goodLog_nil (plugins : List Plugin) : GoodLog plugins [] :=
  fun a ha => absurd ha (List.not_mem_nil a)

/-- Master specification of a full `execute_plugins` run on a closed,
acyclic registry with unique names: it succeeds, the call log is
duplicate-free and dependency-ordered, contains every registered plugin,
and contains only entries reachable from some registered plugin. -/
theorem execute_plugins_spec {plugins : List Plugin} (hN : NamesNodup plugins)
    (hC : Closed plugins) (hA : Acyclic plugins) :
    ∃ L, execute_plugins plugins = .ok L ∧ L.Nodup ∧ GoodLog plugins L ∧
      (∀ p ∈ plugins, p.name ∈ L) ∧
      (∀ x ∈ L, ∃ p ∈ plugins, ReachesFrom plugins p.name x) := by
  have hperm := sortedByPriority_perm plugins
  rcases execDriver_spec hN hC hA (sortedByPriority plugins) []
    (fun p hp => hperm.mem_iff.mp hp) List.nodup_nil (goodLog_nil plugins) with
    ⟨L, hok, _, hnd, hg, hall, hreach⟩
  refine ⟨L, hok, hnd, hg, ?_, ?_⟩
  · intro p hp
    exact hall p (hperm.mem_iff.mpr hp)
  · intro x hx
    rcases hreach x hx with hnil | ⟨p, hp, hrch⟩
    · exact absurd hnil (List.not_mem_nil x)
    · exact ⟨p, hperm.mem_iff.mp hp, hrch⟩

/-- C1: on every acyclic registry with unique names whose declared
dependencies are all registered, for all registered plugins `A` and `B`
with `B` among `A`'s declared dependencies, `execute_plugins` succeeds and
calls `B`'s `execute()` strictly before `A`'s, regardless of the priority
values. -/
theorem execute_plugins_dependency_first {plugins : List Plugin} {A B : Plugin}
    (hN : NamesNodup plugins) (hC : Closed plugins) (hA : Acyclic plugins)
    (hAmem : A ∈ plugins) (hBmem : B ∈ plugins) (hdep : B.name ∈ A.dependencies) :
    ∃ L, execute_plugins plugins = .ok L ∧ executesBefore L B.name A.name := by
  rcases execute_plugins_spec hN hC hA with ⟨L, hok, _, hg, hall, _⟩
  have hAL : A.name ∈ L := hall A hAmem
  have h := hg A.name hAL A (lookup_self hN hAmem) B.name hdep
  exact ⟨L, hok, h.1, hAL, h.2⟩

/-- Witness for `execute_plugins_dependency_first`: a two-plugin registry
where "app" depends on "base" but has the lower (earlier) priority. -/
theorem execute_plugins_dependency_first_witness :
    ∃ L, execute_plugins
        [⟨"app", "0.1", "d", [], 0, ["base"], false, false⟩,
         ⟨"base", "0.1", "d", [], 9, [], false, false⟩] = .ok L ∧
      executesBefore L "base" "app" :=
  @execute_plugins_dependency_first
    [⟨"app", "0.1", "d", [], 0, ["base"], false, false⟩,
     ⟨"base", "0.1", "d", [], 9, [], false, false⟩]
    ⟨"app", "0.1", "d", [], 0, ["base"], false, false⟩
    ⟨"base", "0.1", "d", [], 9, [], false, false⟩
    (by decide) (by decide)
    (acyclic_of_rank _ (fun n => if n = "app" then 1 else 0) (by decide))
    (by decide) (by decide) (by decide)

/-- C2: on every acyclic registry with unique names whose declared
dependencies are all registered, a single `execute_plugins` run succeeds,
invokes each registered plugin's `execute()` exactly once, and invokes
nothing but registered plugins. -/
theorem execute_plugins_exactly_once {plugins : List Plugin}
    (hN : NamesNodup plugins) (hC : Closed plugins) (hA : Acyclic plugins) :
    ∃ L, execute_plugins plugins = .ok L ∧
      (∀ p ∈ plugins, L.count p.name = 1) ∧
      (∀ x ∈ L, ∃ p ∈ plugins, p.name = x) := by
  rcases execute_plugins_spec hN hC hA with ⟨L, hok, hnd, _, hall, hreach⟩
  refine ⟨L, hok, ?_, ?_⟩
  · intro p hp
    exact List.count_eq_one_of_mem hnd (hall p hp)
  · intro x hx
    rcases hreach x hx with ⟨p, hp, hrch⟩
    rcases reaches_elim hrch with heq | ⟨p2, hp2, hd⟩
    · exact ⟨p, hp, heq.symm⟩
    · rcases Option.isSome_iff_exists.mp (hC p2 hp2 x hd) with ⟨q, hq⟩
      exact ⟨q, lookup_mem hq, lookup_name hq⟩

/-- Witness for `execute_plugins_exactly_once`: the diamond
A→C, B→C of the spec, plus the shared dependency C. -/
theorem execute_plugins_exactly_once_witness :
    ∃ L, execute_plugins
        [⟨"A", "0.1", "d", [], 0, ["C"], false, false⟩,
         ⟨"B", "0.1", "d", [], 1, ["C"], false, false⟩,
         ⟨"C", "0.1", "d", [], 2, [], false, false⟩] = .ok L ∧
      (∀ p ∈ [⟨"A", "0.1", "d", [], 0, ["C"], false, false⟩,
              ⟨"B", "0.1", "d", [], 1, ["C"], false, false⟩,
              (⟨"C", "0.1", "d", [], 2, [], false, false⟩ : Plugin)],
        L.count p.name = 1) ∧
      (∀ x ∈ L, ∃ p ∈ [⟨"A", "0.1", "d", [], 0, ["C"], false, false⟩,
              (⟨"B", "0.1", "d", [], 1, ["C"], false, false⟩ : Plugin),
              ⟨"C", "0.1", "d", [], 2, [], false, false⟩], p.name = x) :=
  execute_plugins_exactly_once (by decide) (by decide)
    (acyclic_of_rank _ (fun n => if n = "C" then 0 else 1) (by decide))

/-- C7: with exactly the three registered plugins `X` (priority 5, no
dependencies), `Y` (priority 1, depends on `X`) and `Z` (priority 0, no
dependencies), `execute_plugins` calls execute in the exact sequence
`Z, X, Y` — whatever the registration (insertion) order was. -/
theorem execute_plugins_scenario_ZXY :
    (execute_plugins
      [⟨"X", "0.1", "d", [], 5, [], false, false⟩,
       ⟨"Y", "0.1", "d", [], 1, ["X"], false, false⟩,
       ⟨"Z", "0.1", "d", [], 0, [], false, false⟩] = .ok ["Z", "X", "Y"]) ∧
    (execute_plugins
      [⟨"X", "0.1", "d", [], 5, [], false, false⟩,
       ⟨"Z", "0.1", "d", [], 0, [], false, false⟩,
       ⟨"Y", "0.1", "d", [], 1, ["X"], false, false⟩] = .ok ["Z", "X", "Y"]) ∧
    (execute_plugins
      [⟨"Y", "0.1", "d", [], 1, ["X"], false, false⟩,
       ⟨"X", "0.1", "d", [], 5, [], false, false⟩,
       ⟨"Z", "0.1", "d", [], 0, [], false, false⟩] = .ok ["Z", "X", "Y"]) ∧
    (execute_plugins
      [⟨"Y", "0.1", "d", [], 1, ["X"], false, false⟩,
       ⟨"Z", "0.1", "d", [], 0, [], false, false⟩,
       ⟨"X", "0.1", "d", [], 5, [], false, false⟩] = .ok ["Z", "X", "Y"]) ∧
    (execute_plugins
      [⟨"Z", "0.1", "d", [], 0, [], false, false⟩,
       ⟨"X", "0.1", "d", [], 5, [], false, false⟩,
       ⟨"Y", "0.1", "d", [], 1, ["X"], false, false⟩] = .ok ["Z", "X", "Y"]) ∧
    (execute_plugins
      [⟨"Z", "0.1", "d", [], 0, [], false, false⟩,
       ⟨"Y", "0.1", "d", [], 1, ["X"], false, false⟩,
       ⟨"X", "0.1", "d", [], 5, [], false, false⟩] = .ok ["Z", "X", "Y"]) :=
  ⟨rfl, rfl, rfl, rfl, rfl, rfl⟩

/-! ## Error analysis of the execution pass (for C10) -/

theorem execDeps_err (plugins : List Plugin)
    (rec : List String → Plugin → Except PyErr (List String))
    (hrec : ∀ e q err, q ∈ plugins → rec e q = .error err → err = .recursionError) :
    ∀ (deps : List String) (e : List String) (err : PyErr),
      (∀ d ∈ deps, (lookupPlugin plugins d).isSome) →
      execDeps plugins rec e deps = .error err → err = .recursionError := by
  intro deps
  induction deps with
  | nil =>
    intro e err _ hres
    simp only [execDeps] at hres
    cases hres
  | cons d rest ih =>
    intro e err hcl hres
    rcases Option.isSome_iff_exists.mp (hcl d (List.mem_cons_self d rest)) with ⟨q, hq⟩
    cases hr1 : rec e q with
    | error err2 =>
      rw [execDeps_cons_some hq] at hres
      simp only [hr1] at hres
      injection hres with hres
      exact hres ▸ hrec e q err2 (lookup_mem hq) hr1
    | ok r1 =>
      rw [execDeps_cons_some hq] at hres
      simp only [hr1] at hres
      exact ih r1 err (fun d2 hd2 => hcl d2 (List.mem_cons_of_mem d hd2)) hres

theorem execOne_err {plugins : List Plugin} (hC : Closed plugins) :
    ∀ (fuel : Nat) (e : List String) (p : Plugin) (err : PyErr), p ∈ plugins →
      execOne plugins fuel e p = .error err → err = .recursionError := by
  intro fuel
  induction fuel with
  | zero =>
    intro e p err _ hres
    rw [execOne_zero] at hres
    injection hres with hres
    exact hres.symm
  | succ fuel ih =>
    intro e p err hp hres
    by_cases hmem : p.name ∈ e
    · rw [execOne_succ_mem hmem] at hres
      cases hres
    · cases hdeps : execDeps plugins (execOne plugins fuel) e p.dependencies with
      | error err2 =>
        rw [execOne_succ_new hmem] at hres
        simp only [hdeps] at hres
        injection hres with hres
        refine hres ▸ execDeps_err plugins (execOne plugins fuel) ?_
          p.dependencies e err2 (fun d hd => hC p hp d hd) hdeps
        intro e2 q err3 hq hres3
        exact ih e2 q err3 hq hres3
      | ok r2 =>
        rw [execOne_succ_new hmem] at hres
        simp only [hdeps] at hres
        cases hres

theorem execDriver_err {plugins : List Plugin} (hC : Closed plugins) :
    ∀ (l : List Plugin) (e : List String) (err : PyErr), (∀ p ∈ l, p ∈ plugins) →
      execDriver plugins plugins.length l e = .error err → err = .recursionError := by
  intro l
  induction l with
  | nil =>
    intro e err _ hres
    simp only [execDriver] at hres
    cases hres
  | cons p rest ih =>
    intro e err hl hres
    have hp : p ∈ plugins := hl p (List.mem_cons_self p rest)
    cases hr : execOne plugins plugins.length e p with
    | error err2 =>
      simp only [execDriver, hr] at hres
      injection hres with hres
      exact hres ▸ execOne_err hC plugins.length e p err2 hp hr
    | ok r =>
      simp only [execDriver, hr] at hres
      exact ih r err (fun q hq => hl q (List.mem_cons_of_mem p hq)) hres

/-- C10: when every declared dependency of every registered plugin is a
registry key, the dict lookup `self.plugins[dep_name]` inside
`execute_with_dependencies` never fails, so `execute_plugins` never
surfaces a `KeyError`; and without that precondition a missing dependency
surfaces as a plain `KeyError` naming the missing key — not as a
`DependencyError`, because `execute_plugins` performs no registry
membership check. -/
theorem execute_plugins_keyerror_analysis :
    (∀ plugins : List Plugin, Closed plugins →
      isKeyErrorResult (execute_plugins plugins) = false) ∧
    (execute_plugins [⟨"A", "0.1", "d", [], 0, ["B"], false, false⟩] =
        .error (.keyError "B") ∧
      PyErr.isDependencyError (.keyError "B") = false) := by
  constructor
  · intro plugins hC
    cases hres : execute_plugins plugins with
    | ok L => rfl
    | error err =>
      have hperm := sortedByPriority_perm plugins
      have herr : err = .recursionError :=
        execDriver_err hC (sortedByPriority plugins) [] err
          (fun p hp => hperm.mem_iff.mp hp) hres
      subst herr
      rfl
  · exact ⟨rfl, rfl⟩

/-- Witness for `execute_plugins_keyerror_analysis`: its closed part
applied to a concrete closed registry. -/
theorem execute_plugins_keyerror_analysis_witness :
    isKeyErrorResult (execute_plugins
      [⟨"app", "0.1", "d", [], 0, ["base"], false, false⟩,
       ⟨"base", "0.1", "d", [], 9, [], false, false⟩]) = false :=
  execute_plugins_keyerror_analysis.1
    [⟨"app", "0.1", "d", [], 0, ["base"], false, false⟩,
     ⟨"base", "0.1", "d", [], 9, [], false, false⟩] (by decide)

/-! ## Priority ordering of plugins nobody depends on (for C4) -/

/-- A name that no registered plugin declares as a dependency can only be
logged by a top-level call on the plugin carrying that very name. -/
theorem execOne_no_new {plugins : List Plugin} (hN : NamesNodup plugins)
    (hA : Acyclic plugins) {fuel : Nat} {e r : List String} {p : Plugin} {x : String}
    (hp : p ∈ plugins) (hnd : e.Nodup) (hg : GoodLog plugins e)
    (hres : execOne plugins fuel e p = .ok r)
    (hx_nodep : ∀ q ∈ plugins, x ∉ q.dependencies) (hx_ne : p.name ≠ x)
    (hx_not : x ∉ e) : x ∉ r := by
  intro hxr
  have hpost := execOne_spec hN hA fuel e p r hp hnd hg hres
  rcases hpost.reach x hxr with h1 | hrch
  · exact hx_not h1
  · rcases reaches_elim hrch with heq | ⟨q, hq, hd⟩
    · exact hx_ne heq.symm
    · exact hx_nodep q hq hd

/-- A successful `execute_with_dependencies` call on a not-yet-executed
plugin ends with the plugin's own log entry. -/
theorem execOne_shape {plugins : List Plugin} {fuel : Nat} {e : List String}
    {p : Plugin} {r : List String} (hres : execOne plugins fuel e p = .ok r)
    (hmem : p.name ∉ e) : ∃ r2, r = r2 ++ [p.name] := by
  cases fuel with
  | zero =>
    rw [execOne_zero] at hres
    cases hres
  | succ fuel =>
    cases hdeps : execDeps plugins (execOne plugins fuel) e p.dependencies with
    | error err =>
      rw [execOne_succ_new hmem] at hres
      simp only [hdeps] at hres
      cases hres
    | ok r2 =>
      rw [execOne_succ_new hmem] at hres
      simp only [hdeps] at hres
      injection hres with hres
      exact ⟨r2, hres.symm⟩

/-- Driving phase two: `A` is already logged, `B` (on which nobody
depends) is still pending in the worklist — `A` stays strictly before
`B`. -/
theorem execDriver_orders {plugins : List Plugin} (hN : NamesNodup plugins)
    (hC : Closed plugins) (hA : Acyclic plugins) {A B : Plugin}
    (hBmem : B ∈ plugins)
    (hBnodep : ∀ q ∈ plugins, B.name ∉ q.dependencies) :
    ∀ (l : List Plugin) (e : List String), (∀ p ∈ l, p ∈ plugins) → l.Nodup →
      e.Nodup → GoodLog plugins e → B ∈ l → B.name ∉ e → A.name ∈ e →
      ∃ L, execDriver plugins plugins.length l e = .ok L ∧
        executesBefore L A.name B.name := by
  intro l
  induction l with
  | nil =>
    intro e _ _ _ _ hBl
    exact absurd hBl (List.not_mem_nil B)
  | cons q rest ih =>
    intro e hl hlnd hnd hg hBl hBnot hAin
    have hq : q ∈ plugins := hl q (List.mem_cons_self q rest)
    rcases execOne_ok hN hC plugins.length e q hq (bounded_of_acyclic hC hA hq) with ⟨r, hr⟩
    have hpost := execOne_spec hN hA plugins.length e q r hq hnd hg hr
    have hAr : A.name ∈ r := by
      rcases hpost.ext with ⟨t, ht⟩
      exact ht ▸ List.mem_append_left _ hAin
    by_cases hqB : q = B
    · subst hqB
      rcases execOne_shape hr hBnot with ⟨r2, hshape⟩
      have hABne : A.name ≠ q.name := fun h => hBnot (h ▸ hAin)
      have hAr2 : A.name ∈ r2 := by
        rw [hshape] at hAr
        rcases List.mem_append.mp hAr with h | h
        · exact h
        · exact absurd (List.mem_singleton.mp h) hABne
      rcases execDriver_spec hN hC hA rest r
        (fun p2 hp2 => hl p2 (List.mem_cons_of_mem _ hp2)) hpost.nodup hpost.good with
        ⟨L, hok, hLext, hLnd, _, _, _⟩
      refine ⟨L, by simp only [execDriver, hr]; exact hok, ?_⟩
      rcases hLext with ⟨t, ht⟩
      have hLform : L = r2 ++ q.name :: t := by
        rw [ht, hshape, List.append_assoc, List.singleton_append]
      exact executesBefore_of_split hLnd hLform hAr2
    · have hqBname : q.name ≠ B.name := fun h => hqB (name_inj hN hq hBmem h)
      have hBr : B.name ∉ r := execOne_no_new hN hA hq hnd hg hr hBnodep hqBname hBnot
      have hBrest : B ∈ rest := by
        rcases List.mem_cons.mp hBl with h | h
        · exact absurd h.symm hqB
        · exact h
      rcases ih r (fun p2 hp2 => hl p2 (List.mem_cons_of_mem _ hp2))
        (List.nodup_cons.mp hlnd).2 hpost.nodup hpost.good hBrest hBr hAr with
        ⟨L, hok, hord⟩
      exact ⟨L, by simp only [execDriver, hr]; exact hok, hord⟩

/-- Driving phase one: `A` sits strictly before `B` in the worklist,
neither is logged yet, and nobody depends on either — `A` gets logged
strictly before `B`. -/
theorem execDriver_trace {plugins : List Plugin} (hN : NamesNodup plugins)
    (hC : Closed plugins) (hA : Acyclic plugins) {A B : Plugin}
    (hAmem : A ∈ plugins) (hBmem : B ∈ plugins)
    (hAnodep : ∀ q ∈ plugins, A.name ∉ q.dependencies)
    (hBnodep : ∀ q ∈ plugins, B.name ∉ q.dependencies) :
    ∀ (l : List Plugin) (e : List String), (∀ p ∈ l, p ∈ plugins) → l.Nodup →
      e.Nodup → GoodLog plugins e →
      (∃ l₁ l₂, l = l₁ ++ A :: l₂ ∧ B ∈ l₂) → A.name ∉ e → B.name ∉ e →
      ∃ L, execDriver plugins plugins.length l e = .ok L ∧
        executesBefore L A.name B.name := by
  intro l
  induction l with
  | nil =>
    intro e _ _ _ _ hdec _ _
    rcases hdec with ⟨l₁, l₂, heq, _⟩
    exact absurd heq (by simp)
  | cons q rest ih =>
    intro e hl hlnd hnd hg hdec hAnot hBnot
    rcases hdec with ⟨l₁, l₂, heq, hBl₂⟩
    have hq : q ∈ plugins := hl q (List.mem_cons_self q rest)
    rcases execOne_ok hN hC plugins.length e q hq (bounded_of_acyclic hC hA hq) with ⟨r, hr⟩
    have hpost := execOne_spec hN hA plugins.length e q r hq hnd hg hr
    cases l₁ with
    | nil =>
      simp only [List.nil_append] at heq
      injection heq with h1 h2
      subst h1
      subst h2
      have hABel : q ≠ B := by
        intro h
        exact (List.nodup_cons.mp hlnd).1 (h ▸ hBl₂)
      have hABname : q.name ≠ B.name := fun h => hABel (name_inj hN hq hBmem h)
      have hBr : B.name ∉ r := execOne_no_new hN hA hq hnd hg hr hBnodep hABname hBnot
      rcases execDriver_orders hN hC hA hBmem hBnodep rest r
        (fun p2 hp2 => hl p2 (List.mem_cons_of_mem _ hp2))
        (List.nodup_cons.mp hlnd).2 hpost.nodup hpost.good hBl₂ hBr hpost.selfMem with
        ⟨L, hok, hord⟩
      exact ⟨L, by simp only [execDriver, hr]; exact hok, hord⟩
    | cons p1 l₁' =>
      simp only [List.cons_append] at heq
      injection heq with h1 h2
      subst h1
      have hArest : A ∈ rest := h2 ▸ List.mem_append_right _ (List.mem_cons_self A l₂)
      have hBrest : B ∈ rest :=
        h2 ▸ List.mem_append_right _ (List.mem_cons_of_mem A hBl₂)
      have hqnot : q ∉ rest := (List.nodup_cons.mp hlnd).1
      have hqA : q ≠ A := fun h => hqnot (h ▸ hArest)
      have hqB : q ≠ B := fun h => hqnot (h ▸ hBrest)
      have hAr : A.name ∉ r := execOne_no_new hN hA hq hnd hg hr hAnodep
        (fun h => hqA (name_inj hN hq hAmem h)) hAnot
      have hBr : B.name ∉ r := execOne_no_new hN hA hq hnd hg hr hBnodep
        (fun h => hqB (name_inj hN hq hBmem h)) hBnot
      rcases ih r (fun p2 hp2 => hl p2 (List.mem_cons_of_mem _ hp2))
        (List.nodup_cons.mp hlnd).2 hpost.nodup hpost.good
        ⟨l₁', l₂, h2, hBl₂⟩ hAr hBr with ⟨L, hok, hord⟩
      exact ⟨L, by simp only [execDriver, hr]; exact hok, hord⟩

/-- C4 (amended): on every acyclic registry with unique names whose
declared dependencies are all registered, for registered plugins `A`, `B`
such that no registered plugin declares either of them as a dependency
(which in particular puts them in no dependency relationship with each
other), the one with the strictly lower priority value executes first. -/
theorem execute_plugins_priority_independent {plugins : List Plugin} {A B : Plugin}
    (hN : NamesNodup plugins) (hC : Closed plugins) (hA : Acyclic plugins)
    (hAmem : A ∈ plugins) (hBmem : B ∈ plugins)
    (hAnodep : ∀ q ∈ plugins, A.name ∉ q.dependencies)
    (hBnodep : ∀ q ∈ plugins, B.name ∉ q.dependencies)
    (hlt : A.priority < B.priority) :
    ∃ L, execute_plugins plugins = .ok L ∧ executesBefore L A.name B.name := by
  have hperm := sortedByPriority_perm plugins
  have hsorted := sortedByPriority_sorted plugins
  have hlnd : (sortedByPriority plugins).Nodup :=
    hperm.nodup_iff.mpr (names_nodup_elements hN)
  rcases sorted_split hsorted (hperm.mem_iff.mpr hAmem) (hperm.mem_iff.mpr hBmem)
    hlt with ⟨l₁, l₂, heq, hB2⟩
  rcases execDriver_trace hN hC hA hAmem hBmem hAnodep hBnodep
    (sortedByPriority plugins) [] (fun p hp => hperm.mem_iff.mp hp) hlnd
    List.nodup_nil (goodLog_nil plugins) ⟨l₁, l₂, heq, hB2⟩
    (List.not_mem_nil A.name) (List.not_mem_nil B.name) with ⟨L, hok, hord⟩
  exact ⟨L, hok, hord⟩

/-- Witness for `execute_plugins_priority_independent`: three mutually
independent plugins; "low" (priority 1) runs before "high" (priority 7). -/
theorem execute_plugins_priority_independent_witness :
    ∃ L, execute_plugins
        [⟨"high", "0.1", "d", [], 7, [], false, false⟩,
         ⟨"low", "0.1", "d", [], 1, [], false, false⟩,
         ⟨"mid", "0.1", "d", [], 4, [], false, false⟩] = .ok L ∧
      executesBefore L "low" "high" :=
  @execute_plugins_priority_independent
    [⟨"high", "0.1", "d", [], 7, [], false, false⟩,
     ⟨"low", "0.1", "d", [], 1, [], false, false⟩,
     ⟨"mid", "0.1", "d", [], 4, [], false, false⟩]
    ⟨"low", "0.1", "d", [], 1, [], false, false⟩
    ⟨"high", "0.1", "d", [], 7, [], false, false⟩
    (by decide) (by decide)
    (acyclic_of_rank _ (fun _ => 0) (by decide))
    (by decide) (by decide) (by decide) (by decide) (by decide)

/-- C4 counterexample: `cexB` and `cexC` have no dependency relationship
(`cexB` depends on nothing and `cexC` depends on nothing), `cexB` has the
strictly lower priority value, yet the run logs `C` before `B`, because
`cexA` (priority 0) pulls its dependency `C` forward.  So the claim "for
every pair of registered plugins with no dependency relationship the lower
priority value executes first" is false as stated. -/
theorem execute_plugins_priority_counterexample :
    cexB.dependencies = [] ∧ cexC.dependencies = [] ∧
    cexB.priority < cexC.priority ∧
    execute_plugins [cexA, cexB, cexC] = .ok ["C", "A", "B"] ∧
    decide (executesBefore ["C", "A", "B"] "B" "C") = false :=
  ⟨rfl, rfl, by decide, rfl, by decide⟩

/-! ## Resolution: state-threading lemmas -/

theorem markInited_nil (st : List Plugin) : markInited st [] = st := by
  unfold markInited
  simp

theorem markInited_fun_name (p : Plugin) (S : List String) :
    (if p.name ∈ S then { p with initialized := true } else p).name = p.name := by
  by_cases hp : p.name ∈ S <;> simp [hp]

theorem markInited_fun_deps (p : Plugin) (S : List String) :
    (if p.name ∈ S then { p with initialized := true } else p).dependencies =
      p.dependencies := by
  by_cases hp : p.name ∈ S <;> simp [hp]

theorem lookup_markInited (st : List Plugin) (S : List String) (n : String) :
    lookupPlugin (markInited st S) n =
      (lookupPlugin st n).map
        (fun p => if p.name ∈ S then { p with initialized := true } else p) := by
  induction st with
  | nil => rfl
  | cons p rest ih =>
    unfold lookupPlugin markInited at ih ⊢
    simp only [List.map_cons, List.find?_cons]
    rw [markInited_fun_name]
    cases h : (p.name == n) with
    | true => rfl
    | false => simpa using ih

theorem depEdge_markInited (st : List Plugin) (S : List String) (a b : String) :
    depEdge (markInited st S) a b = depEdge st a b := by
  unfold depEdge
  rw [lookup_markInited]
  cases lookupPlugin st a with
  | none => rfl
  | some p =>
    show (if p.name ∈ S then { p with initialized := true } else p).dependencies.contains b =
      p.dependencies.contains b
    rw [markInited_fun_deps]

theorem isDepWalk_markInited (st : List Plugin) (S : List String) :
    ∀ w, isDepWalk (markInited st S) w = isDepWalk st w := by
  intro w
  induction w with
  | nil => rfl
  | cons a rest ih =>
    cases rest with
    | nil => rfl
    | cons b rest2 =>
      show (depEdge (markInited st S) a b && isDepWalk (markInited st S) (b :: rest2)) = _
      rw [depEdge_markInited, ih]
      exact rfl

theorem boundedFrom_markInited {st : List Plugin} {S : List String} {fuel : Nat}
    {n : String} (h : BoundedFrom st fuel n) : BoundedFrom (markInited st S) fuel n := by
  intro w hw
  rw [isDepWalk_markInited] at hw
  exact h w hw

theorem setInitialized_eq_markInited (st : List Plugin) (n : String) :
    setInitialized st n = markInited st [n] := by
  unfold setInitialized markInited
  apply List.map_congr_left
  intro p _
  by_cases h : p.name = n
  · simp [h]
  · simp [h]

theorem markInited_markInited (st : List Plugin) (S T : List String) :
    markInited (markInited st S) T = markInited st (S ++ T) := by
  unfold markInited
  rw [List.map_map]
  apply List.map_congr_left
  intro p _
  by_cases hS : p.name ∈ S <;> by_cases hT : p.name ∈ T <;>
    simp [hS, hT, Function.comp]

/-! ## Resolution: unfolding lemmas -/

theorem load_plugin_zero {st : List Plugin} {n : String} :
    load_plugin 0 st n = .error .recursionError := rfl

theorem load_plugin_succ_none {fuel : Nat} {st : List Plugin} {n : String}
    (h : lookupPlugin st n = none) :
    load_plugin (fuel + 1) st n =
      .error (.valueError ("Plugin " ++ n ++ " not found")) := by
  simp only [load_plugin, h]

theorem load_plugin_succ_some {fuel : Nat} {st : List Plugin} {n : String}
    {p : Plugin} (h : lookupPlugin st n = some p) :
    load_plugin (fuel + 1) st n =
      match loadDeps (load_plugin fuel) st p.dependencies with
      | .error e => .error e
      | .ok st2 => .ok (setInitialized st2 n) := by
  simp only [load_plugin, h]

theorem loadDeps_cons_none {rec : List Plugin → String → Except PyErr (List Plugin)}
    {st : List Plugin} {d : String} {rest : List String}
    (h : lookupPlugin st d = none) :
    loadDeps rec st (d :: rest) = .error (.typeError
      "DependencyError.__init__ missing 2 required positional arguments: dependency and message") := by
  simp only [loadDeps, h]

theorem loadDeps_cons_some {rec : List Plugin → String → Except PyErr (List Plugin)}
    {st : List Plugin} {d : String} {rest : List String} {q : Plugin}
    (h : lookupPlugin st d = some q) :
    loadDeps rec st (d :: rest) =
      if q.initialized then loadDeps rec st rest
      else
        match rec st d with
        | .error e => .error e
        | .ok st2 => loadDeps rec st2 rest := by
  simp only [loadDeps, h]

theorem load_all_from_cons_some {fuel : Nat} {st : List Plugin} {n : String}
    {rest : List String} {q : Plugin} (h : lookupPlugin st n = some q) :
    load_all_from fuel st (n :: rest) =
      if q.initialized then load_all_from fuel st rest
      else
        match load_plugin fuel st n with
        | .error e => .error e
        | .ok st2 => load_all_from fuel st2 rest := by
  simp only [load_all_from, h]

/-! ## Resolution: specification -/

theorem loadDeps_spec (base : List Plugin) (fuel : Nat)
    (rec : List Plugin → String → Except PyErr (List Plugin))
    (hrec : LoadRecOK base fuel rec) :
    ∀ (deps : List String) (S : List String),
      (∀ d ∈ deps, (lookupPlugin base d).isSome ∧ BoundedFrom base fuel d) →
      ∃ S2, loadDeps rec (markInited base S) deps = .ok (markInited base S2) ∧
        S ⊆ S2 := by
  intro deps
  induction deps with
  | nil =>
    intro S _
    exact ⟨S, rfl, fun x hx => hx⟩
  | cons d rest ih =>
    intro S hdeps
    have hd := hdeps d (List.mem_cons_self d rest)
    rcases Option.isSome_iff_exists.mp hd.1 with ⟨q, hq⟩
    have hstq : lookupPlugin (markInited base S) d =
        some (if q.name ∈ S then { q with initialized := true } else q) := by
      rw [lookup_markInited, hq]
      rfl
    by_cases hinit : (if q.name ∈ S then { q with initialized := true } else q).initialized
    · rw [loadDeps_cons_some hstq, if_pos hinit]
      exact ih S (fun d2 hd2 => hdeps d2 (List.mem_cons_of_mem d hd2))
    · rcases hrec S d q hq hd.2 with ⟨S1, hS1, hsub1, hdS1⟩
      rcases ih S1 (fun d2 hd2 => hdeps d2 (List.mem_cons_of_mem d hd2)) with
        ⟨S2, hS2, hsub2⟩
      refine ⟨S2, ?_, fun x hx => hsub2 (hsub1 hx)⟩
      rw [loadDeps_cons_some hstq, if_neg hinit]
      simp only [hS1]
      exact hS2

theorem load_plugin_spec (base : List Plugin) (hC : Closed base) :
    ∀ fuel, LoadRecOK base fuel (load_plugin fuel) := by
  intro fuel
  induction fuel with
  | zero =>
    intro S n p _ hb
    exact absurd (hb [] rfl) (Nat.lt_irrefl 0)
  | succ fuel ih =>
    intro S n p hp hb
    have hstp : lookupPlugin (markInited base S) n =
        some (if p.name ∈ S then { p with initialized := true } else p) := by
      rw [lookup_markInited, hp]
      rfl
    have hdeps : ∀ d ∈ p.dependencies,
        (lookupPlugin base d).isSome ∧ BoundedFrom base fuel d := by
      intro d hd
      exact ⟨hC p (lookup_mem hp) d hd,
        bounded_step (depEdge_intro hp hd) hb⟩
    rcases loadDeps_spec base fuel (load_plugin fuel) ih p.dependencies S hdeps with
      ⟨S1, hS1, hsub1⟩
    refine ⟨S1 ++ [n], ?_, fun x hx => List.mem_append_left _ (hsub1 hx),
      List.mem_append_right _ (List.mem_singleton_self n)⟩
    rw [load_plugin_succ_some hstp, markInited_fun_deps]
    simp only [hS1]
    rw [setInitialized_eq_markInited, markInited_markInited]

theorem load_all_from_spec (base : List Plugin) (hC : Closed base)
    (hwb : ∀ n ∈ base.map Plugin.name, BoundedFrom base base.length n) :
    ∀ (order : List String) (S : List String),
      (∀ n ∈ order, n ∈ base.map Plugin.name) →
      ∃ S2, load_all_from base.length (markInited base S) order =
          .ok (markInited base S2) ∧ S ⊆ S2 ∧
        ∀ n ∈ order, n ∈ S2 ∨
          ∃ p, lookupPlugin base n = some p ∧ p.initialized = true := by
  intro order
  induction order with
  | nil =>
    intro S _
    exact ⟨S, rfl, fun x hx => hx, fun n hn => absurd hn (List.not_mem_nil n)⟩
  | cons n rest ih =>
    intro S horder
    have hn : n ∈ base.map Plugin.name := horder n (List.mem_cons_self n rest)
    have hsome : (lookupPlugin base n).isSome := by
      rcases List.mem_map.mp hn with ⟨p2, hp2mem, hp2name⟩
      rw [← hp2name]
      exact lookup_isSome_of_mem hp2mem
    rcases Option.isSome_iff_exists.mp hsome with ⟨p, hp⟩
    have hstp : lookupPlugin (markInited base S) n =
        some (if p.name ∈ S then { p with initialized := true } else p) := by
      rw [lookup_markInited, hp]
      rfl
    by_cases hinit : (if p.name ∈ S then { p with initialized := true } else p).initialized
    · rcases ih S (fun n2 hn2 => horder n2 (List.mem_cons_of_mem n hn2)) with
        ⟨S2, hS2, hsub, hall⟩
      refine ⟨S2, ?_, hsub, ?_⟩
      · rw [load_all_from_cons_some hstp, if_pos hinit]
        exact hS2
      · intro n2 hn2
        rcases List.mem_cons.mp hn2 with rfl | hm
        · by_cases hS : p.name ∈ S
          · exact Or.inl (hsub ((lookup_name hp) ▸ hS))
          · rw [if_neg hS] at hinit
            exact Or.inr ⟨p, hp, hinit⟩
        · exact hall n2 hm
    · rcases load_plugin_spec base hC base.length S n p hp (hwb n hn) with
        ⟨S1, hS1, hsub1, hnS1⟩
      rcases ih S1 (fun n2 hn2 => horder n2 (List.mem_cons_of_mem n hn2)) with
        ⟨S2, hS2, hsub2, hall⟩
      refine ⟨S2, ?_, fun x hx => hsub2 (hsub1 hx), ?_⟩
      · rw [load_all_from_cons_some hstp, if_neg hinit]
        simp only [hS1]
        exact hS2
      · intro n2 hn2
        rcases List.mem_cons.mp hn2 with rfl | hm
        · exact Or.inl (hsub2 hnS1)
        · exact hall n2 hm

/-! ## Registration lemmas -/

theorem dictInsert_mem {registry : List Plugin} {inst p : Plugin}
    (hp : p ∈ dictInsert registry inst) : p ∈ registry ∨ p = inst := by
  unfold dictInsert at hp
  by_cases h : registry.any (fun q => q.name == inst.name)
  · rw [if_pos h] at hp
    rcases List.mem_map.mp hp with ⟨q, hq, hqe⟩
    by_cases h2 : (q.name == inst.name) = true
    · rw [if_pos h2] at hqe
      exact Or.inr hqe.symm
    · rw [if_neg h2] at hqe
      exact Or.inl (hqe ▸ hq)
  · rw [if_neg h] at hp
    rcases List.mem_append.mp hp with h1 | h1
    · exact Or.inl h1
    · exact Or.inr (List.mem_singleton.mp h1)

/-! ## C6: resolution initializes every plugin -/

/-- C6: a freshly registered instance has `initialized = false` (the
dataclass default; `register_plugin` only ever adds such instances); and on
every acyclic registry with unique names whose declared dependencies are
all registered, the `load_all_plugins` loop — iterated over any order
covering the registry's key set, in particular the registry order itself —
completes without error with every registered plugin initialized. -/
theorem load_all_plugins_initializes :
    (∀ (registry : List Plugin) (plugin_name : String) (cls : PluginClass),
      ∀ p ∈ register_plugin registry plugin_name cls,
        p ∈ registry ∨ p.initialized = false) ∧
    (∀ (base : List Plugin) (order : List String),
      NamesNodup base → Closed base → Acyclic base →
      (∀ n ∈ order, n ∈ base.map Plugin.name) →
      (∀ n ∈ base.map Plugin.name, n ∈ order) →
      ∃ st2, load_all_from base.length base order = .ok st2 ∧
        ∀ p ∈ st2, p.initialized = true) ∧
    (∀ base : List Plugin, NamesNodup base → Closed base → Acyclic base →
      ∃ st2, load_all_plugins base = .ok st2 ∧ ∀ p ∈ st2, p.initialized = true) := by
  have hpart2 : ∀ (base : List Plugin) (order : List String),
      NamesNodup base → Closed base → Acyclic base →
      (∀ n ∈ order, n ∈ base.map Plugin.name) →
      (∀ n ∈ base.map Plugin.name, n ∈ order) →
      ∃ st2, load_all_from base.length base order = .ok st2 ∧
        ∀ p ∈ st2, p.initialized = true := by
    intro base order hN hC hA hsub hsup
    have hwb : ∀ n ∈ base.map Plugin.name, BoundedFrom base base.length n := by
      intro n hn
      rcases List.mem_map.mp hn with ⟨p, hpmem, hpname⟩
      exact hpname ▸ bounded_of_acyclic hC hA hpmem
    rcases load_all_from_spec base hC hwb order [] hsub with ⟨S2, hS2, _, hall⟩
    rw [markInited_nil] at hS2
    refine ⟨markInited base S2, hS2, ?_⟩
    intro p2 hp2
    unfold markInited at hp2
    rcases List.mem_map.mp hp2 with ⟨p, hpmem, hpe⟩
    subst hpe
    rcases hall p.name (hsup p.name (List.mem_map_of_mem Plugin.name hpmem)) with
      hS | ⟨q, hq, hqinit⟩
    · simp [hS]
    · have hqp : q = p := by
        have h2 := lookup_self hN hpmem
        rw [h2] at hq
        exact (Option.some.inj hq).symm
      subst hqp
      by_cases hS : q.name ∈ S2 <;> simp [hS, hqinit]
  refine ⟨?_, hpart2, ?_⟩
  · intro registry plugin_name cls p hp
    rcases dictInsert_mem hp with h | h
    · exact Or.inl h
    · exact Or.inr (by rw [h]; rfl)
  · intro base hN hC hA
    exact hpart2 base (base.map Plugin.name) hN hC hA (fun n hn => hn) (fun n hn => hn)

/-- Witness for `load_all_plugins_initializes`: its `load_all_plugins`
part applied to a concrete two-plugin registry with a dependency. -/
theorem load_all_plugins_initializes_witness :
    ∃ st2, load_all_plugins
        [⟨"app", "0.1", "d", [], 0, ["base"], false, false⟩,
         ⟨"base", "0.1", "d", [], 9, [], false, false⟩] = .ok st2 ∧
      ∀ p ∈ st2, p.initialized = true :=
  load_all_plugins_initializes.2.2
    [⟨"app", "0.1", "d", [], 0, ["base"], false, false⟩,
     ⟨"base", "0.1", "d", [], 9, [], false, false⟩]
    (by decide) (by decide)
    (acyclic_of_rank _ (fun n => if n = "app" then 1 else 0) (by decide))

/-! ## C3: a missing dependency in load_plugin raises TypeError, not DependencyError -/

/-- C3 (divergence witness): with plugin "A" declaring the unregistered
dependency "B", `load_plugin "A"` — and the `load_all_plugins` run driving
it — stops at `raise DependencyError(f"...")`, which calls the
three-parameter `DependencyError.__init__` with a single argument.  Python
therefore raises `TypeError`; no `DependencyError` (which the docstring of
`load_plugin` and the spec promise) is ever constructed, so the error that
surfaces carries neither name in `DependencyError` form. -/
theorem load_plugin_missing_dep_raises_typeerror :
    load_plugin 1 [⟨"A", "0.1", "d", [], 0, ["B"], false, false⟩] "A" =
      .error (.typeError
        "DependencyError.__init__ missing 2 required positional arguments: dependency and message") ∧
    load_all_plugins [⟨"A", "0.1", "d", [], 0, ["B"], false, false⟩] =
      .error (.typeError
        "DependencyError.__init__ missing 2 required positional arguments: dependency and message") ∧
    PyErr.isDependencyError (.typeError
      "DependencyError.__init__ missing 2 required positional arguments: dependency and message") = false :=
  ⟨rfl, rfl, rfl⟩

/-! ## C5: an unknown plugin name raises ValueError, not PluginNotFoundError -/

/-- C5 counterexample: resolving the unregistered name "ghost" yields
`ValueError("Plugin ghost not found")` — not the spec's
`PluginNotFoundError`, a class that does not exist in the source. -/
theorem load_plugin_unknown_name_counterexample :
    load_plugin 1 [] "ghost" = .error (.valueError "Plugin ghost not found") ∧
    PyErr.isPluginNotFound (.valueError "Plugin ghost not found") = false :=
  ⟨rfl, rfl⟩

/-- C5 (amended): for every name that is not a registry key, `load_plugin`
fails by raising `ValueError` with the message
`"Plugin {name} not found"`. -/
theorem load_plugin_unknown_name_valueerror (plugins : List Plugin) (n : String)
    (fuel : Nat) (h : lookupPlugin plugins n = none) :
    load_plugin (fuel + 1) plugins n =
      .error (.valueError ("Plugin " ++ n ++ " not found")) :=
  load_plugin_succ_none h

/-- Witness for `load_plugin_unknown_name_valueerror` at the empty registry
and the name "ghost". -/
theorem load_plugin_unknown_name_valueerror_witness :
    load_plugin 1 [] "ghost" =
      .error (.valueError ("Plugin " ++ "ghost" ++ " not found")) :=
  load_plugin_unknown_name_valueerror [] "ghost" 0 rfl

/-! ## C8: the registry key of a discovered plugin -/

/-- C8 counterexample: discovering the plugin directory "dummy" stores the
instance under the module name "src.plugins.dummy", not under the
directory name "dummy". -/
theorem discovery_key_counterexample :
    (discover_plugins [⟨"dummy", some dummyCls⟩] []).map Plugin.name =
      ["src.plugins.dummy"] ∧
    decide ((discover_plugins [⟨"dummy", some dummyCls⟩] []).map Plugin.name =
      ["dummy"]) = false :=
  ⟨rfl, by decide⟩

/-- C8 (amended): every plugin registered through discovery is stored
under the module name `"src.plugins." ++ dirname` — a name derived from
the plugin's subdirectory, not declared by the class or module — while
pre-existing registry entries are left as they are. -/
theorem discovery_key_is_module_name :
    ∀ (dirs : List PluginDir) (registry : List Plugin) (p : Plugin),
      p ∈ discover_plugins dirs registry →
      p ∈ registry ∨ ∃ dir ∈ dirs, p.name = "src.plugins." ++ dir.dirname := by
  intro dirs
  induction dirs with
  | nil =>
    intro registry p hp
    exact Or.inl hp
  | cons dir rest ih =>
    intro registry p hp
    cases hcls : dir.pluginClass with
    | none =>
      have hp2 : p ∈ discover_plugins rest registry := by
        unfold discover_plugins at hp ⊢
        rw [List.foldl_cons, hcls] at hp
        exact hp
      rcases ih registry p hp2 with h | ⟨d2, hd2, hname⟩
      · exact Or.inl h
      · exact Or.inr ⟨d2, List.mem_cons_of_mem dir hd2, hname⟩
    | some cls =>
      have hp2 : p ∈ discover_plugins rest
          (register_plugin registry ("src.plugins." ++ dir.dirname) cls) := by
        unfold discover_plugins at hp ⊢
        rw [List.foldl_cons, hcls] at hp
        exact hp
      rcases ih _ p hp2 with h | ⟨d2, hd2, hname⟩
      · rcases dictInsert_mem h with h2 | h2
        · exact Or.inl h2
        · refine Or.inr ⟨dir, List.mem_cons_self dir rest, ?_⟩
          rw [h2]
          rfl
      · exact Or.inr ⟨d2, List.mem_cons_of_mem dir hd2, hname⟩

/-- Witness for `discovery_key_is_module_name`: the instance discovered
from directory "dummy" is keyed "src.plugins.dummy". -/
theorem discovery_key_is_module_name_witness :
    (⟨"src.plugins.dummy", "0.1", "No description provided", [], 0, [], false, false⟩ : Plugin)
        ∈ ([] : List Plugin) ∨
      ∃ dir ∈ [(⟨"dummy", some dummyCls⟩ : PluginDir)],
        (⟨"src.plugins.dummy", "0.1", "No description provided", [], 0, [], false, false⟩ : Plugin).name =
          "src.plugins." ++ dir.dirname :=
  discovery_key_is_module_name [⟨"dummy", some dummyCls⟩] []
    ⟨"src.plugins.dummy", "0.1", "No description provided", [], 0, [], false, false⟩
    (by decide)

/-! ## C9: which descriptor fields registration forwards to the factory -/

/-- C9 counterexample: for a class declaring `aliases`, `priority`,
`dependencies` and `sessionable`, the source's `register_plugin` produces
an instance with the factory defaults `[]`, `0`, `[]`, `false` — the call
passes only name, version, description and host — while the registration
the spec describes (forwarding every descriptor field) would keep the
declared values.  The two differ. -/
theorem register_plugin_fields_counterexample :
    (register_plugin [] "p" richCls).map Plugin.dependencies = [[]] ∧
    (register_plugin_specModel [] "p" richCls).map Plugin.dependencies = [["dep1"]] ∧
    (register_plugin [] "p" richCls).map Plugin.priority = [0] ∧
    (register_plugin_specModel [] "p" richCls).map Plugin.priority = [7] ∧
    decide (register_plugin [] "p" richCls =
      register_plugin_specModel [] "p" richCls) = false :=
  ⟨rfl, rfl, rfl, rfl, by decide⟩

/-- C9 (amended): `register_plugin` constructs the instance through the
factory passing only `(name, version, description, host)`, with `version`
defaulting to "0.1" and `description` to a placeholder when the class does
not declare them; `aliases`, `priority`, `dependencies` and `sessionable`
are never read from the class and take the factory defaults `[]`, `0`,
`[]`, `false`, and the fresh instance is not initialized. -/
theorem register_plugin_passes_defaults (registry : List Plugin)
    (plugin_name : String) (cls : PluginClass) :
    register_plugin registry plugin_name cls =
      dictInsert registry
        { name := plugin_name
          version := cls.version.getD "0.1"
          description := cls.description.getD "No description provided"
          aliases := []
          priority := 0
          dependencies := []
          sessionable := false
          initialized := false } :=
  rfl

end DStone
